import Mathlib

/-
Verification of the BusinessWarmer pipeline (src/app.py): text normalization
(clean_text), HTML content extraction (scrape_website_content), prompt
construction and truncation (generate_llm_pitch), LLM-output parsing, URL
validation, and the subject-refinement post-processing step.

Strings are modelled as `List Char`.  Python character classes (str.isspace,
str.isprintable, str.splitlines boundaries) are modelled exactly on ASCII and
on every Unicode whitespace / line-break code point; other non-printable
Unicode categories (Cf, Co, Cn, Cs) are not distinguished, which no claim
depends on.  Case conversion (str.capitalize, re.IGNORECASE) is modelled on
ASCII letters via Char.toUpper / Char.toLower.
-/

abbrev Str := List Char

/-- Python whitespace (str.isspace, also the characters matched by the regex
class backslash-s used in clean_text): ASCII whitespace and separators plus
the Unicode space code points. -/
def pyIsSpace (c : Char) : Bool :=
  decide (c ∈ [' ', '\t', '\n', '\x0b', '\x0c', '\r',
    '\x1c', '\x1d', '\x1e', '\x1f', '\x85', '\xa0',
    ' ', ' ', ' ', ' ', ' ', ' ', ' ',
    ' ', ' ', ' ', ' ', ' ',
    ' ', ' ', ' ', ' ', '　'])

/-- Python str.isprintable for a single character: false for control
characters (C0, DEL, C1) and for every whitespace character other than the
ASCII space.  Exact on ASCII and on all whitespace code points. -/
def pyIsPrintable (c : Char) : Bool :=
  let n := c.toNat
  decide (¬ (n < 0x20 ∨ (0x7f ≤ n ∧ n ≤ 0xa0) ∨ n = 0x1680 ∨
    (0x2000 ≤ n ∧ n ≤ 0x200a) ∨ n = 0x2028 ∨ n = 0x2029 ∨
    n = 0x202f ∨ n = 0x205f ∨ n = 0x3000))

/-- Line-break characters recognised by Python str.splitlines. -/
def isLB (c : Char) : Bool :=
  decide (c ∈ ['\n', '\r', '\x0b', '\x0c', '\x1c', '\x1d', '\x1e',
    '\x85', ' ', ' '])

/-- Model of re.sub applied with the whitespace-run pattern and a single
space replacement (app.py line 46): every maximal run of whitespace
characters becomes one ASCII space. -/
def collapseWs : Str → Str
  | [] => []
  | [c] => if pyIsSpace c then [' '] else [c]
  | c :: d :: rest =>
    if pyIsSpace c && pyIsSpace d then collapseWs (d :: rest)
    else (if pyIsSpace c then ' ' else c) :: collapseWs (d :: rest)

/-- Model of Python str.strip with no argument: remove leading and trailing
whitespace. -/
def pyStrip (s : Str) : Str :=
  ((s.dropWhile pyIsSpace).reverse.dropWhile pyIsSpace).reverse

/-- Model of clean_text (app.py lines 44-48): collapse whitespace runs to a
single space, drop non-printable characters, then strip. -/
def clean_text (s : Str) : Str :=
  pyStrip ((collapseWs s).filter pyIsPrintable)

/-- Boolean statement of the spec invariant: the string contains no two
consecutive whitespace characters. -/
def noRunWs : Str → Bool
  | [] => true
  | [_] => true
  | a :: b :: rest => !(pyIsSpace a && pyIsSpace b) && noRunWs (b :: rest)

/-- Model of the Python substring test (the `in` operator on str). -/
def containsSub (pat : Str) : Str → Bool
  | [] => pat.isEmpty
  | s@(_ :: rest) => pat.isPrefixOf s || containsSub pat rest

/-- Scanner underlying the model of str.replace: at skip budget 0 it tests
for an occurrence of old at the current position; on a match it emits new and
skips the rest of the occurrence via the budget. -/
def replAux (old new : Str) : Str → Nat → Str
  | [], _ => []
  | _ :: rest, Nat.succ k => replAux old new rest k
  | s@(c :: rest), 0 =>
    if old.isPrefixOf s then new ++ replAux old new rest (old.length - 1)
    else c :: replAux old new rest 0

/-- Model of Python str.replace(old, new) for a non-empty old: replace every
occurrence, scanning left to right without overlap (app.py line 230; the
program only ever passes the fixed non-empty pattern). -/
def pyReplace (old new s : Str) : Str :=
  replAux old new s 0

/-- Scanner underlying the model of str.split(old), same occurrence scan as
replAux but collecting the pieces between occurrences. -/
def splitAux (old : Str) : Str → Nat → List Str
  | [], _ => [[]]
  | _ :: rest, Nat.succ k => splitAux old rest k
  | s@(c :: rest), 0 =>
    if old.isPrefixOf s then [] :: splitAux old rest (old.length - 1)
    else
      match splitAux old rest 0 with
      | [] => [[c]]
      | p :: ps => (c :: p) :: ps

/-- Model of Python str.split(old) for a non-empty old separator. -/
def splitOnSub (old s : Str) : List Str :=
  splitAux old s 0

/-- Model of Python str.splitlines: split at every line-break character,
treating a carriage return followed by a newline as one boundary, with no
trailing empty piece for a terminal line break. -/
def pySplitlines : Str → List Str
  | [] => []
  | [c] => if isLB c then [[]] else [[c]]
  | c :: d :: rest =>
    if c = '\r' ∧ d = '\n' then [] :: pySplitlines rest
    else if isLB c then [] :: pySplitlines (d :: rest)
    else
      match pySplitlines (d :: rest) with
      | [] => [[c]]
      | p :: ps => (c :: p) :: ps

/-- Drop a single trailing empty piece from a piece list; this is the effect
splitlines-then-join-with-newline has on a piece list. -/
def dropTrailEmpty : List Str → List Str
  | [] => []
  | [p] => if p.isEmpty then [] else [p]
  | p :: ps => p :: dropTrailEmpty ps

/-- Model of Python str.capitalize: first character upper-cased, all later
characters lower-cased (ASCII model). -/
def pyCapitalize : Str → Str
  | [] => []
  | c :: t => c.toUpper :: t.map Char.toLower

/-- Model of Python str.split with a single-character separator. -/
def splitOnChar (sep : Char) : Str → List Str
  | [] => [[]]
  | c :: rest =>
    if c = sep then [] :: splitOnChar sep rest
    else
      match splitOnChar sep rest with
      | [] => [[c]]
      | p :: ps => (c :: p) :: ps

/-- Model of the display-name derivation (app.py lines 218-224): strip a
leading www. label from the domain, turn dashes into spaces, split on dots,
apply str.capitalize to each label, rejoin with dots, then turn the spaces
back into dashes. -/
def display_name (netloc : Str) : Str :=
  let domain := if ("www.".toList).isPrefixOf netloc then netloc.drop 4 else netloc
  let replaced := domain.map (fun c => if c = '-' then ' ' else c)
  let joined := List.intercalate ['.'] ((splitOnChar '.' replaced).map pyCapitalize)
  joined.map (fun c => if c = ' ' then '-' else c)

/-- The literal placeholder searched for in the first line of the generated
pitch (app.py line 228). -/
def genericSubjectPart : Str := "at Your Business".toList

/-- Model of the subject-refinement step (app.py lines 227-232): split the
pitch into lines; if there is a first line and it contains the placeholder,
replace the placeholder there with the derived display name and rejoin the
lines with a newline; otherwise leave the pitch unchanged. -/
def refine_subject (pitch netloc : Str) : Str :=
  match pySplitlines pitch with
  | [] => pitch
  | l0 :: rest =>
    if containsSub genericSubjectPart l0 then
      List.intercalate ['\n']
        (pyReplace genericSubjectPart ("at ".toList ++ display_name netloc) l0 :: rest)
    else pitch

/-- The subject marker searched for in the model output, lower-cased. -/
def subjTok : Str := "subject:".toList

/-- Case-insensitive match of the subject marker at position i of the
string (model of the re.IGNORECASE search target, ASCII case model). -/
def matchesAt (s : Str) (i : Nat) : Bool :=
  subjTok.isPrefixOf ((s.drop i).map Char.toLower)

/-- Index of the first case-insensitive occurrence of the subject marker
(model of re.search with the IGNORECASE flag, app.py line 149). -/
def findSubjCI : Str → Option Nat
  | [] => none
  | s@(_ :: rest) =>
    if subjTok.isPrefixOf (s.map Char.toLower) then some 0
    else (findSubjCI rest).map (· + 1)

/-- Model of the response-parsing step of generate_llm_pitch (app.py lines
144-159): strip the raw model output; if the subject marker occurs, return
the stripped suffix starting at its first occurrence, otherwise return the
whole stripped output unchanged (the non-fatal fallback path). -/
def parse_pitch (rawResponse : Str) : Str :=
  let raw := pyStrip rawResponse
  match findSubjCI raw with
  | some i => pyStrip (raw.drop i)
  | none => raw

mutual
/-- Parsed HTML node: a text node or an element with a tag name, attributes
and children (the DOM-like tree BeautifulSoup produces; html.parser does not
invent missing elements such as body). -/
inductive HTree : Type where
  | text : Str → HTree
  | elem : Str → List (Str × Str) → HForest → HTree
/-- A forest of sibling nodes; a parsed document is the soup's top-level
forest. -/
inductive HForest : Type where
  | nil : HForest
  | cons : HTree → HForest → HForest
end

/-- Build a forest from a list of nodes (literal notation helper). -/
def HForest.ofList : List HTree → HForest
  | [] => .nil
  | t :: ts => .cons t (HForest.ofList ts)

/-- Model of decomposing every element whose tag is in the given list,
everywhere in the forest (the soup(...) loop at app.py lines 63-64 and the
find_all loop at lines 74-76): the element and its whole subtree vanish. -/
def scrubF (names : List Str) : HForest → HForest
  | .nil => .nil
  | .cons (.text s) f => .cons (.text s) (scrubF names f)
  | .cons (.elem t a c) f =>
    if names.contains t then scrubF names f
    else .cons (.elem t a (scrubF names c)) (scrubF names f)

/-- Model of soup.find(tag): first element with the given tag name in
pre-order (an element before its descendants, descendants before later
siblings); returns its attributes and children. -/
def findTagF (tag : Str) : HForest → Option (List (Str × Str) × HForest)
  | .nil => none
  | .cons (.text _) f => findTagF tag f
  | .cons (.elem t a c) f =>
    if t = tag then some (a, c)
    else
      match findTagF tag c with
      | some r => some r
      | none => findTagF tag f

/-- Model of soup.find with tag div and attribute role equal to main
(app.py line 67). -/
def findDivMainF : HForest → Option (List (Str × Str) × HForest)
  | .nil => none
  | .cons (.text _) f => findDivMainF f
  | .cons (.elem t a c) f =>
    if t = "div".toList ∧ a.lookup "role".toList = some "main".toList then some (a, c)
    else
      match findDivMainF c with
      | some r => some r
      | none => findDivMainF f

/-- Whether the forest contains an element with the given tag anywhere. -/
def hasTagF (tag : Str) : HForest → Bool
  | .nil => false
  | .cons (.text _) f => hasTagF tag f
  | .cons (.elem t _ c) f => t == tag || hasTagF tag c || hasTagF tag f

/-- Whether the forest contains a div element with role attribute main. -/
def hasDivMainF : HForest → Bool
  | .nil => false
  | .cons (.text _) f => hasDivMainF f
  | .cons (.elem t a c) f =>
    (decide (t = "div".toList ∧ a.lookup "role".toList = some "main".toList)) ||
      hasDivMainF c || hasDivMainF f

/-- The strings of all text nodes of the forest in document order. -/
def stringsF : HForest → List Str
  | .nil => []
  | .cons (.text s) f => s :: stringsF f
  | .cons (.elem _ _ c) f => stringsF c ++ stringsF f

/-- Model of get_text with a single-space separator and strip=True (app.py
line 79): each text-node string is stripped, empty results are dropped, and
the rest are joined with one space. -/
def getTextF (f : HForest) : Str :=
  List.intercalate [' '] (((stringsF f).map pyStrip).filter (fun s => !s.isEmpty))

/-- Tags decomposed over the whole document before the target search
(app.py line 63). -/
def initNames : List Str :=
  ["script".toList, "style".toList, "aside".toList, "link".toList, "meta".toList]

/-- Tags decomposed inside the target element (app.py line 73). -/
def innerNames : List Str :=
  ["script".toList, "style".toList, "nav".toList, "footer".toList, "header".toList,
   "aside".toList, "button".toList, "form".toList, "iframe".toList, "img".toList,
   "figure".toList, "figcaption".toList]

/-- Model of the extraction phase of scrape_website_content (app.py lines
59-85), applied to the parsed document: decompose script, style, aside,
link, meta everywhere; pick the first of main, article, div[role=main],
else body (a found bs4 Tag is always truthy, so the or-chain is a
first-not-None choice); if none exists return None (the error branch at
line 85); otherwise decompose the inner tag list within the target, take
its text and clean it. -/
def scrape_website_content (doc : HForest) : Option Str :=
  let soup := scrubF initNames doc
  let mainContent :=
    match findTagF "main".toList soup with
    | some r => some r
    | none =>
      match findTagF "article".toList soup with
      | some r => some r
      | none => findDivMainF soup
  let target :=
    match mainContent with
    | some r => some r
    | none => findTagF "body".toList soup
  match target with
  | none => none
  | some (_, c) => some (clean_text (getTextF (scrubF innerNames c)))

/-- Model of CPython urlsplit as used by urlparse on the fields the program
reads: remove tab, carriage return and newline; strip leading and trailing
control characters and spaces; read a scheme (a leading alphabetic label of
scheme characters before a colon, lower-cased); read a netloc after a
double slash, up to the first slash, question mark or hash. -/
def py_urlparse (url : Str) : Str × Str :=
  let cleaned := (url.filter (fun c => !(c == '\t' || c == '\r' || c == '\n')))
  let trimmed := ((cleaned.dropWhile (fun c => c.toNat ≤ 0x20)).reverse.dropWhile
    (fun c => c.toNat ≤ 0x20)).reverse
  let schemeOk := fun (s : Str) =>
    match s with
    | [] => false
    | c :: rest => c.isAlpha && rest.all (fun d => d.isAlpha || d.isDigit ||
        d == '+' || d == '-' || d == '.')
  let (scheme, rest) :=
    match trimmed.findIdx? (· = ':') with
    | some i =>
      if schemeOk (trimmed.take i) then ((trimmed.take i).map Char.toLower, trimmed.drop (i + 1))
      else ([], trimmed)
    | none => ([], trimmed)
  let netloc :=
    if ("//".toList).isPrefixOf rest then
      (rest.drop 2).takeWhile (fun c => !(c == '/' || c == '?' || c == '#'))
    else []
  (scheme, netloc)

/-- The URL-validation condition of app.py line 193: scheme http or https
and a non-empty netloc. -/
def validUrl (url : Str) : Bool :=
  let p := py_urlparse url
  (p.1 == "http".toList || p.1 == "https".toList) && !p.2.isEmpty

/-- Character budget for the text embedded in the prompt (app.py line 40). -/
def MAX_SCRAPED_TEXT_LENGTH : Nat := 4000

/-- Model of the truncation at app.py line 107: prefix cut of the scraped
text at the configured budget. -/
def content_to_analyze (scraped : Str) : Str :=
  scraped.take MAX_SCRAPED_TEXT_LENGTH

/-- Text of the prompt template before the first embedded URL. -/
def promptPart1 : Str :=
  "\n    Analyze the following text scraped from the website ".toList

/-- Text of the prompt template between the first embedded URL and the
embedded website text. -/
def promptPart2 : Str :=
  ":\n    --- WEBSITE TEXT ---\n    ".toList

/-- Text of the prompt template between the embedded website text and the
second embedded URL. -/
def promptPart3 : Str :=
  ("\n    --- END WEBSITE TEXT ---\n\n    Based *only* on the text provided:\n    1. Briefly identify the primary services or products offered by the business.\n    2. Infer potential operational inefficiencies or areas where automation services could provide value (e.g., manual appointment booking if no online system is mentioned, repetitive tasks implied by service descriptions, lack of clear online sales process). Be specific if possible, but avoid making definitive claims if the text is vague.\n    3. Generate a concise, personalized, and professional cold outreach email (around 150-200 words) addressed to the business owner.\n\n    The email should:\n    - Start with a brief, relevant observation about their business based *specifically* on the scraped text (e.g., \"I saw on your website, ").toList

/-- Text of the prompt template after the second embedded URL. -/
def promptPart4 : Str :=
  (", that you offer [Service Mentioned]...\").\n    - Gently introduce a *potential* challenge or opportunity related to automation that might resonate based on your analysis (e.g., \"Many businesses offering similar services find that automating [Specific Process like \x27client scheduling\x27 or \x27quote generation\x27] can save significant time...\").\n    - Briefly introduce your automation services as a possible solution to such challenges.\n    - Include a clear, low-friction call to action (e.g., \"Would you be open to a brief 10-minute call next week to explore if automation could benefit your operations?\").\n    - Maintain a helpful and professional tone. Avoid overly aggressive sales language.\n    - Do NOT invent information not present in the text (like specific employee names or internal processes).\n\n    Output *only* the generated email content below, starting with a subject line like \"Subject: Enhancing [Business Area] Operations at [Business Name inferred from URL/Content if possible, otherwise use \x27Your Business\x27]\".\n    ").toList

/-- Model of the prompt construction of generate_llm_pitch (app.py lines
112-132): the fixed instruction template with the source URL embedded twice
and the truncated scraped text embedded between the website-text markers. -/
def build_prompt (scraped url : Str) : Str :=
  promptPart1 ++ url ++ promptPart2 ++ content_to_analyze scraped ++
    promptPart3 ++ url ++ promptPart4

/-- Outcome of the external fetch-and-parse collaborator: failure (timeout,
HTTP error, network error) or a parsed document. -/
inductive FetchOutcome : Type where
  | failed : FetchOutcome
  | ok : HForest → FetchOutcome

/-- Outcome of the external completion collaborator. -/
inductive LLMOutcome : Type where
  | failed : LLMOutcome
  | ok : Str → LLMOutcome

/-- External calls the pipeline issues, with their payloads. -/
inductive CallEv : Type where
  | fetchCall : Str → CallEv
  | completeCall : Str → CallEv
deriving DecidableEq

/-- Terminal outcome of one pipeline run. -/
inductive PipeResult : Type where
  | invalidUrl : PipeResult
  | fetchFailed : PipeResult
  | noUsableContent : PipeResult
  | generationFailed : PipeResult
  | pitch : Str → PipeResult
deriving DecidableEq

/-- Model of one run of the submit handler for an entered URL (app.py lines
191-245), with the two external collaborators replaced by their outcomes and
the list of issued external calls recorded.  Validation failure raises
ValueError, caught at line 244, before any call.  A falsy scrape result
(None or the empty string) stops at the line 242 error without a completion
call.  A falsy generation result (exception or empty output) stops at the
line 240 error.  Otherwise the parsed pitch goes through the best-effort
subject refinement with the display name derived from the parsed netloc. -/
def run_pipeline (url model : Str) (fetched : FetchOutcome) (llm : LLMOutcome) :
    PipeResult × List CallEv :=
  let _ := model
  if !validUrl url then (.invalidUrl, [])
  else
    match fetched with
    | .failed => (.fetchFailed, [.fetchCall url])
    | .ok doc =>
      match scrape_website_content doc with
      | none => (.noUsableContent, [.fetchCall url])
      | some txt =>
        if txt.isEmpty then (.noUsableContent, [.fetchCall url])
        else
          let prompt := build_prompt txt url
          match llm with
          | .failed => (.generationFailed, [.fetchCall url, .completeCall prompt])
          | .ok raw =>
            let generated := parse_pitch raw
            if generated.isEmpty then
              (.generationFailed, [.fetchCall url, .completeCall prompt])
            else
              (.pitch (refine_subject generated (py_urlparse url).2),
                [.fetchCall url, .completeCall prompt])

/-- Children of the main element in the worked extraction example of the
spec (testable property for the extractor). -/
def exMainChildren : HForest := .ofList
  [.text "Hello ".toList, .elem "script".toList [] (.ofList [.text "x".toList]),
   .text "World".toList]

/-- The parse of the worked extraction example: body holding a nav and a
main element with a script inside. -/
def exDocC7 : HForest := .ofList
  [.elem "body".toList [] (.ofList
    [.elem "nav".toList [] (.ofList [.text "Menu".toList]),
     .elem "main".toList [] exMainChildren])]

/-- A document whose only main element sits inside an aside element, next
to a paragraph sibling. -/
def exDocAside : HForest := .ofList
  [.elem "body".toList [] (.ofList
    [.elem "aside".toList []
       (.ofList [.elem "main".toList [] (.ofList [.text "Secret".toList])]),
     .elem "p".toList [] (.ofList [.text "Out".toList])])]

/-- The parse of a document with no body, main, article or div[role=main]
element (html.parser does not add a body). -/
def exDocNoBody : HForest := .ofList [.elem "p".toList [] (.ofList [.text "hi".toList])]

/-
Lemmas.
-/

/-- A printable whitespace character is the ASCII space. -/
theorem space_printable_eq (c : Char) (hs : pyIsSpace c = true)
    (hp : pyIsPrintable c = true) : c = ' ' := by
  have hm := of_decide_eq_true hs
  fin_cases hm <;> first | rfl | exact absurd hp (by decide)

/-- The tail of a string with no whitespace run keeps the property. -/
theorem noRunWs_tail {c : Char} {l : Str} (h : noRunWs (c :: l) = true) :
    noRunWs l = true := by
  cases l with
  | nil => rfl
  | cons d t => simp only [noRunWs, Bool.and_eq_true] at h; exact h.2

/-- The right part of an append with no whitespace run keeps the property. -/
theorem noRunWs_append_right {xs ys : Str} (h : noRunWs (xs ++ ys) = true) :
    noRunWs ys = true := by
  induction xs with
  | nil => exact h
  | cons c xs ih => exact ih (noRunWs_tail h)

/-- The left part of an append with no whitespace run keeps the property. -/
theorem noRunWs_append_left {xs ys : Str} (h : noRunWs (xs ++ ys) = true) :
    noRunWs xs = true := by
  induction xs with
  | nil => rfl
  | cons c xs ih =>
    cases xs with
    | nil => rfl
    | cons d t =>
      simp only [List.cons_append, noRunWs, Bool.and_eq_true] at h ⊢
      exact ⟨h.1, by simpa using ih (by simpa using h.2)⟩

/-- Head shape of the whitespace collapse: the first output character is the
first input character, or a space when the first input character is
whitespace. -/
theorem collapse_head : (l : Str) → (d : Char) →
    ∃ tl, collapseWs (d :: l) = (if pyIsSpace d then ' ' else d) :: tl
  | [], d => by
    by_cases hd : pyIsSpace d <;> simp [collapseWs, hd]
  | e :: rest, d => by
    by_cases hd : pyIsSpace d
    · by_cases he : pyIsSpace e
      · obtain ⟨tl, htl⟩ := collapse_head rest e
        refine ⟨tl, ?_⟩
        simp only [collapseWs, hd, he, Bool.and_self, if_pos, if_true]
        rw [htl]
        simp [he]
      · exact ⟨collapseWs (e :: rest), by simp [collapseWs, hd, he]⟩
    · exact ⟨collapseWs (e :: rest), by simp [collapseWs, hd]⟩

/-- The whitespace collapse leaves no two consecutive whitespace
characters. -/
theorem collapse_norun : (l : Str) → noRunWs (collapseWs l) = true
  | [] => rfl
  | [c] => by by_cases hc : pyIsSpace c <;> simp [collapseWs, hc, noRunWs]
  | c :: d :: rest => by
    by_cases hcd : pyIsSpace c && pyIsSpace d
    · simp only [collapseWs, hcd, if_pos]
      exact collapse_norun (d :: rest)
    · simp only [collapseWs, hcd, Bool.false_eq_true, if_neg, not_false_eq_true]
      obtain ⟨tl, htl⟩ := collapse_head rest d
      rw [htl]
      have htail : noRunWs ((if pyIsSpace d then ' ' else d) :: tl) = true := by
        rw [← htl]; exact collapse_norun (d :: rest)
      simp only [noRunWs, Bool.and_eq_true, Bool.not_eq_true']
      refine ⟨?_, htail⟩
      by_cases hc : pyIsSpace c
      · have hd : pyIsSpace d = false := by
          cases hdd : pyIsSpace d
          · rfl
          · rw [hc, hdd] at hcd; simp at hcd
        simp [hc, hd]
      · simp [hc]

/-- Every character of the whitespace collapse is a space or a
non-whitespace character of the input. -/
theorem collapse_mem : (l : Str) → ∀ a ∈ collapseWs l,
    a = ' ' ∨ (a ∈ l ∧ pyIsSpace a = false)
  | [] => by simp [collapseWs]
  | [c] => by
    by_cases hc : pyIsSpace c
    · simp only [collapseWs, hc, if_pos, List.mem_singleton]
      intro a ha; subst ha; exact Or.inl rfl
    · simp only [collapseWs, hc, Bool.false_eq_true, if_neg, not_false_eq_true,
        List.mem_singleton]
      intro a ha; subst ha
      exact Or.inr ⟨rfl, by simpa using hc⟩
  | c :: d :: rest => by
    intro a ha
    by_cases hcd : pyIsSpace c && pyIsSpace d
    · simp only [collapseWs, hcd, if_pos] at ha
      rcases collapse_mem (d :: rest) a ha with h | ⟨h1, h2⟩
      · exact Or.inl h
      · exact Or.inr ⟨List.mem_cons_of_mem c h1, h2⟩
    · simp only [collapseWs, hcd, Bool.false_eq_true, if_neg, not_false_eq_true,
        List.mem_cons] at ha
      rcases ha with ha | ha
      · by_cases hc : pyIsSpace c
        · simp only [hc, if_pos] at ha; exact Or.inl ha
        · simp only [hc, Bool.false_eq_true, if_neg, not_false_eq_true] at ha
          subst ha; exact Or.inr ⟨List.mem_cons_self a _, by simpa using hc⟩
      · rcases collapse_mem (d :: rest) a ha with h | ⟨h1, h2⟩
        · exact Or.inl h
        · exact Or.inr ⟨List.mem_cons_of_mem c h1, h2⟩

/-- On a string with no whitespace run whose whitespace characters are all
the ASCII space, the whitespace collapse is the identity. -/
theorem collapse_eq_self : (l : Str) → noRunWs l = true →
    (∀ a ∈ l, pyIsSpace a = true → a = ' ') → collapseWs l = l
  | [], _, _ => rfl
  | [c], _, hsp => by
    by_cases hc : pyIsSpace c
    · simp only [collapseWs, hc, if_pos]
      rw [hsp c (List.mem_cons_self c []) hc]
    · simp [collapseWs, hc]
  | c :: d :: rest, hnr, hsp => by
    have hcd : (pyIsSpace c && pyIsSpace d) = false := by
      simp only [noRunWs, Bool.and_eq_true, Bool.not_eq_true'] at hnr
      exact hnr.1
    simp only [collapseWs, hcd, Bool.false_eq_true, if_neg, not_false_eq_true]
    have htail := collapse_eq_self (d :: rest) (noRunWs_tail hnr)
      (fun a ha hsa => hsp a (List.mem_cons_of_mem c ha) hsa)
    rw [htail]
    by_cases hc : pyIsSpace c
    · rw [if_pos hc, hsp c (List.mem_cons_self c _) hc]
    · rw [if_neg hc]

/-- The strip is the right-strip of the left-strip. -/
theorem pyStrip_eq (l : Str) :
    pyStrip l = List.rdropWhile pyIsSpace (l.dropWhile pyIsSpace) := rfl

/-- The first character surviving a dropWhile fails the predicate. -/
theorem dropWhile_head_false {p : Char → Bool} :
    (l : Str) → ∀ c t, l.dropWhile p = c :: t → p c = false
  | [], c, t, h => by simp at h
  | a :: l', c, t, h => by
    by_cases hpa : p a = true
    · rw [List.dropWhile_cons_of_pos hpa] at h
      exact dropWhile_head_false l' c t h
    · rw [List.dropWhile_cons_of_neg hpa] at h
      cases h
      simpa using hpa

/-- The strip of a string is an inner segment of it. -/
theorem pyStrip_infix (l : Str) : ∃ u v, l = u ++ pyStrip l ++ v := by
  obtain ⟨v, hv⟩ := List.rdropWhile_prefix pyIsSpace (l.dropWhile pyIsSpace)
  refine ⟨l.takeWhile pyIsSpace, v, ?_⟩
  rw [pyStrip_eq, List.append_assoc, hv, List.takeWhile_append_dropWhile]

/-- Characters of the strip come from the string. -/
theorem mem_pyStrip {a : Char} {l : Str} (h : a ∈ pyStrip l) : a ∈ l := by
  obtain ⟨u, v, huv⟩ := pyStrip_infix l
  rw [huv]
  simp only [List.mem_append]
  exact Or.inl (Or.inr h)

/-- The strip of a string with no whitespace run has no whitespace run. -/
theorem noRunWs_pyStrip {l : Str} (h : noRunWs l = true) :
    noRunWs (pyStrip l) = true := by
  obtain ⟨u, v, huv⟩ := pyStrip_infix l
  rw [huv, List.append_assoc] at h
  exact noRunWs_append_left (noRunWs_append_right h)

/-- Stripping is idempotent. -/
theorem pyStrip_idem (l : Str) : pyStrip (pyStrip l) = pyStrip l := by
  rw [pyStrip_eq (pyStrip l)]
  have hdw : (pyStrip l).dropWhile pyIsSpace = pyStrip l := by
    rcases hh : pyStrip l with _ | ⟨c, t⟩
    · rfl
    · rw [pyStrip_eq] at hh
      have hpfx := List.rdropWhile_prefix pyIsSpace (l.dropWhile pyIsSpace)
      rw [hh] at hpfx
      obtain ⟨w, hw⟩ := hpfx
      have hc : pyIsSpace c = false :=
        dropWhile_head_false l c (t ++ w) hw.symm
      simp only [List.dropWhile_cons]
      rw [if_neg (by simp [hc])]
  rw [hdw, pyStrip_eq l]
  exact List.rdropWhile_idempotent _ _

/-- Every character of a cleaned text is printable. -/
theorem clean_text_printable (x : Str) : ∀ a ∈ clean_text x, pyIsPrintable a = true := by
  intro a ha
  have hm := mem_pyStrip ha
  exact (List.mem_filter.mp hm).2

/-- When every non-printable character of the input is whitespace, the
cleaned text has no run of two whitespace characters. -/
theorem clean_text_noRun {x : Str}
    (hyp : ∀ a ∈ x, pyIsPrintable a = false → pyIsSpace a = true) :
    noRunWs (clean_text x) = true := by
  have hfil : (collapseWs x).filter pyIsPrintable = collapseWs x := by
    rw [List.filter_eq_self]
    intro a ha
    rcases collapse_mem x a ha with h | ⟨h1, h2⟩
    · subst h; decide
    · cases hpa : pyIsPrintable a
      · rw [hyp a h1 hpa] at h2; cases h2
      · rfl
  rw [clean_text, hfil]
  exact noRunWs_pyStrip (collapse_norun x)

/-- On printable input, one cleaning pass reaches a fixed point. -/
theorem clean_text_idem {x : Str}
    (hyp : ∀ a ∈ x, pyIsPrintable a = true) :
    clean_text (clean_text x) = clean_text x := by
  have hfil : (collapseWs x).filter pyIsPrintable = collapseWs x := by
    rw [List.filter_eq_self]
    intro a ha
    rcases collapse_mem x a ha with h | ⟨h1, _⟩
    · subst h; decide
    · exact hyp a h1
  have hy : clean_text x = pyStrip (collapseWs x) := by rw [clean_text, hfil]
  have hmemy : ∀ a ∈ clean_text x, a = ' ' ∨ (a ∈ x ∧ pyIsSpace a = false) := by
    intro a ha
    rw [hy] at ha
    exact collapse_mem x a (mem_pyStrip ha)
  have hrun : noRunWs (clean_text x) = true := by
    rw [hy]; exact noRunWs_pyStrip (collapse_norun x)
  have hsp : ∀ a ∈ clean_text x, pyIsSpace a = true → a = ' ' := by
    intro a ha hspa
    rcases hmemy a ha with h | ⟨_, h2⟩
    · exact h
    · rw [hspa] at h2; cases h2
  have hpr : ∀ a ∈ clean_text x, pyIsPrintable a = true := by
    intro a ha
    rcases hmemy a ha with h | ⟨h1, _⟩
    · subst h; decide
    · exact hyp a h1
  have hcoll : collapseWs (clean_text x) = clean_text x :=
    collapse_eq_self (clean_text x) hrun hsp
  have hfil2 : (clean_text x).filter pyIsPrintable = clean_text x := by
    rw [List.filter_eq_self]; exact hpr
  conv_lhs => rw [clean_text, hcoll, hfil2]
  rw [hy, pyStrip_idem]

/-- Matching the subject marker at a successor position looks past the first
character. -/
theorem matchesAt_cons_succ (c : Char) (s : Str) (j : Nat) :
    matchesAt (c :: s) (j + 1) = matchesAt s j := rfl

/-- Matching at position zero is a direct marker test. -/
theorem matchesAt_zero (s : Str) :
    matchesAt s 0 = subjTok.isPrefixOf (s.map Char.toLower) := rfl

/-- The empty string matches the subject marker nowhere. -/
theorem matchesAt_nil (j : Nat) : matchesAt [] j = false := by
  unfold matchesAt
  rw [List.drop_nil]
  decide

/-- A found subject-marker index is a match and is minimal. -/
theorem findSubj_some : (s : Str) → ∀ i, findSubjCI s = some i →
    matchesAt s i = true ∧ ∀ j, j < i → matchesAt s j = false
  | [], i, h => Option.noConfusion h
  | c :: rest, i, h => by
    by_cases hb : subjTok.isPrefixOf ((c :: rest).map Char.toLower) = true
    · rw [findSubjCI, if_pos hb] at h
      cases h
      exact ⟨hb, fun j hj => absurd hj (Nat.not_lt_zero j)⟩
    · rw [findSubjCI, if_neg hb] at h
      rcases hk : findSubjCI rest with _ | k
      · rw [hk] at h; exact Option.noConfusion h
      · rw [hk] at h
        obtain ⟨hm, hmin⟩ := findSubj_some rest k hk
        obtain rfl : k + 1 = i := Option.some.inj h
        refine ⟨by rw [matchesAt_cons_succ]; exact hm, ?_⟩
        intro j hj
        cases j with
        | zero =>
          rw [matchesAt_zero]
          simp only [Bool.not_eq_true] at hb
          exact hb
        | succ j' =>
          rw [matchesAt_cons_succ]
          exact hmin j' (Nat.lt_of_succ_lt_succ hj)

/-- When no subject-marker index is found there is no match anywhere. -/
theorem findSubj_none : (s : Str) → findSubjCI s = none →
    ∀ j, matchesAt s j = false
  | [], _, j => matchesAt_nil j
  | c :: rest, h, j => by
    by_cases hb : subjTok.isPrefixOf ((c :: rest).map Char.toLower) = true
    · rw [findSubjCI, if_pos hb] at h; cases h
    · rw [findSubjCI, if_neg hb] at h
      rcases hk : findSubjCI rest with _ | k
      · cases j with
        | zero =>
          rw [matchesAt_zero]
          simp only [Bool.not_eq_true] at hb
          exact hb
        | succ j' => rw [matchesAt_cons_succ]; exact findSubj_none rest hk j'
      · rw [hk] at h; exact Option.noConfusion h

/-- Intercalation over a single piece is the piece. -/
theorem intercal_single (sep x : Str) : List.intercalate sep [x] = x := by
  simp [List.intercalate]

/-- Intercalation over at least two pieces peels the first piece and one
separator. -/
theorem intercal_cons_cons (sep x y : Str) (l : List Str) :
    List.intercalate sep (x :: y :: l) = x ++ sep ++ List.intercalate sep (y :: l) := by
  simp [List.intercalate, List.intersperse_cons₂]

/-- The split scanner always yields at least one piece. -/
theorem splitAux_ne_nil (old : Str) : (s : Str) → (k : Nat) → splitAux old s k ≠ []
  | [], _ => by simp [splitAux]
  | _ :: rest, Nat.succ k => splitAux_ne_nil old rest k
  | c :: rest, 0 => by
    by_cases hp : old.isPrefixOf (c :: rest) = true
    · rw [splitAux, if_pos hp]; simp
    · rw [splitAux, if_neg hp]
      rcases hsp : splitAux old rest 0 with _ | ⟨p, ps⟩ <;> simp

/-- The replace scanner is the intercalation of the replacement over the
split pieces. -/
theorem replAux_eq_intercalate (old new : Str) : (s : Str) → (k : Nat) →
    replAux old new s k = List.intercalate new (splitAux old s k)
  | [], k => by
    rw [replAux, splitAux, intercal_single]
  | c :: rest, Nat.succ k => by
    rw [replAux, splitAux]
    exact replAux_eq_intercalate old new rest k
  | c :: rest, 0 => by
    by_cases hp : old.isPrefixOf (c :: rest) = true
    · rw [replAux, splitAux, if_pos hp, if_pos hp]
      rcases hsp : splitAux old rest (old.length - 1) with _ | ⟨p, ps⟩
      · exact absurd hsp (splitAux_ne_nil old rest (old.length - 1))
      · rw [intercal_cons_cons, List.nil_append,
          replAux_eq_intercalate old new rest (old.length - 1), hsp]
    · rw [replAux, splitAux, if_neg hp, if_neg hp]
      rcases hsp : splitAux old rest 0 with _ | ⟨p, ps⟩
      · exact absurd hsp (splitAux_ne_nil old rest 0)
      · have ih := replAux_eq_intercalate old new rest 0
        rw [hsp] at ih
        cases ps with
        | nil =>
          rw [intercal_single] at ih
          rw [intercal_single, ih]
        | cons q ps' =>
          rw [intercal_cons_cons] at ih
          rw [intercal_cons_cons, ih]
          simp

/-- The first split piece is a leading part of the string. -/
theorem splitAux_head_pfx (old : Str) : (s : Str) → ∀ p ps,
    splitAux old s 0 = p :: ps → p <+: s
  | [], p, ps, h => by
    rw [splitAux] at h
    cases h
    exact List.nil_prefix
  | c :: rest, p, ps, h => by
    by_cases hp : old.isPrefixOf (c :: rest) = true
    · rw [splitAux, if_pos hp] at h
      cases h
      exact List.nil_prefix
    · rw [splitAux, if_neg hp] at h
      rcases hsp : splitAux old rest 0 with _ | ⟨p₀, ps₀⟩
      · exact absurd hsp (splitAux_ne_nil old rest 0)
      · rw [hsp] at h
        obtain ⟨h1, h2⟩ := List.cons.inj h
        subst h1
        exact List.cons_prefix_cons.mpr ⟨rfl, splitAux_head_pfx old rest p₀ ps₀ hsp⟩

/-- No split piece contains an occurrence of the separator. -/
theorem splitAux_no_pat (old : Str) (hold : old ≠ []) : (s : Str) → (k : Nat) →
    ∀ p ∈ splitAux old s k, containsSub old p = false
  | [], k, p, hp => by
    rw [splitAux] at hp
    rcases List.mem_singleton.mp hp with rfl
    rcases old with _ | ⟨o, ot⟩
    · exact absurd rfl hold
    · rfl
  | c :: rest, Nat.succ k, p, hp => by
    rw [splitAux] at hp
    exact splitAux_no_pat old hold rest k p hp
  | c :: rest, 0, p, hp => by
    by_cases hpp : old.isPrefixOf (c :: rest) = true
    · rw [splitAux, if_pos hpp] at hp
      rcases List.mem_cons.mp hp with rfl | hmem
      · rcases old with _ | ⟨o, ot⟩
        · exact absurd rfl hold
        · rfl
      · exact splitAux_no_pat old hold rest (old.length - 1) p hmem
    · rw [splitAux, if_neg hpp] at hp
      rcases hsp : splitAux old rest 0 with _ | ⟨p₀, ps₀⟩
      · exact absurd hsp (splitAux_ne_nil old rest 0)
      · rw [hsp] at hp
        rcases List.mem_cons.mp hp with rfl | hmem
        · have hright : containsSub old p₀ = false :=
            splitAux_no_pat old hold rest 0 p₀ (by rw [hsp]; exact List.mem_cons_self _ _)
          have hleft : old.isPrefixOf (c :: p₀) = false := by
            cases hl : old.isPrefixOf (c :: p₀)
            · rfl
            · exfalso
              have h1 : old <+: c :: p₀ := List.isPrefixOf_iff_prefix.mp hl
              have h2 : p₀ <+: rest := splitAux_head_pfx old rest p₀ ps₀ hsp
              have h3 : c :: p₀ <+: c :: rest := List.cons_prefix_cons.mpr ⟨rfl, h2⟩
              have h4 : old.isPrefixOf (c :: rest) = true :=
                List.isPrefixOf_iff_prefix.mpr (h1.trans h3)
              rw [h4] at hpp
              exact hpp rfl
          rw [containsSub, hleft, hright]
          rfl
        · exact splitAux_no_pat old hold rest 0 p (by rw [hsp]; exact List.mem_cons_of_mem _ hmem)

/-- Characters of the replace output come from the replacement or the
input. -/
theorem replAux_chars (old new : Str) : (s : Str) → (k : Nat) →
    ∀ a ∈ replAux old new s k, a ∈ new ∨ a ∈ s
  | [], k, a, ha => by rw [replAux] at ha; cases ha
  | c :: rest, Nat.succ k, a, ha => by
    rw [replAux] at ha
    rcases replAux_chars old new rest k a ha with h | h
    · exact Or.inl h
    · exact Or.inr (List.mem_cons_of_mem c h)
  | c :: rest, 0, a, ha => by
    by_cases hp : old.isPrefixOf (c :: rest) = true
    · rw [replAux, if_pos hp] at ha
      rcases List.mem_append.mp ha with h | h
      · exact Or.inl h
      · rcases replAux_chars old new rest (old.length - 1) a h with h2 | h2
        · exact Or.inl h2
        · exact Or.inr (List.mem_cons_of_mem c h2)
    · rw [replAux, if_neg hp] at ha
      rcases List.mem_cons.mp ha with rfl | h
      · exact Or.inr (List.mem_cons_self _ _)
      · rcases replAux_chars old new rest 0 a h with h2 | h2
        · exact Or.inl h2
        · exact Or.inr (List.mem_cons_of_mem c h2)

/-- Splitlines on a string headed by a non-break character prepends it to
the first piece. -/
theorem pySplitlines_cons (c : Char) (l : Str) (hl : l ≠ []) (hc : isLB c = false) :
    pySplitlines (c :: l) =
      match pySplitlines l with
      | [] => [[c]]
      | p :: ps => (c :: p) :: ps := by
  rcases l with _ | ⟨d, rest⟩
  · exact absurd rfl hl
  · have hcr : c ≠ '\r' := by
      intro h; subst h; exact absurd hc (by decide)
  
    rw [pySplitlines, if_neg (fun hand => hcr hand.1), if_neg (by simp [hc])]

/-- Every character of every splitlines piece is a non-break character. -/
theorem sl_pieces_noLB : (s : Str) → ∀ p ∈ pySplitlines s, ∀ c ∈ p, isLB c = false
  | [], p, hp => by rw [pySplitlines] at hp; cases hp
  | [c], p, hp => by
    by_cases hc : isLB c = true
    · rw [pySplitlines, if_pos hc] at hp
      rcases List.mem_singleton.mp hp with rfl
      intro e he; cases he
    · rw [pySplitlines, if_neg hc] at hp
      rcases List.mem_singleton.mp hp with rfl
      intro e he
      rcases List.mem_singleton.mp he with rfl
      simpa using hc
  | c :: d :: rest, p, hp => by
    by_cases h1 : c = '\r' ∧ d = '\n'
    · rw [pySplitlines, if_pos h1] at hp
      rcases List.mem_cons.mp hp with rfl | hmem
      · intro e he; cases he
      · exact sl_pieces_noLB rest p hmem
    · rw [pySplitlines, if_neg h1] at hp
      by_cases h2 : isLB c = true
      · rw [if_pos h2] at hp
        rcases List.mem_cons.mp hp with rfl | hmem
        · intro e he; cases he
        · exact sl_pieces_noLB (d :: rest) p hmem
      · rw [if_neg h2] at hp
        rcases hsp : pySplitlines (d :: rest) with _ | ⟨p₀, ps₀⟩
        · rw [hsp] at hp
          rcases List.mem_singleton.mp hp with rfl
          intro e he
          rcases List.mem_singleton.mp he with rfl
          simpa using h2
        · rw [hsp] at hp
          rcases List.mem_cons.mp hp with rfl | hmem
          · intro e he
            rcases List.mem_cons.mp he with rfl | hein
            · simpa using h2
            · exact sl_pieces_noLB (d :: rest) p₀ (by rw [hsp]; exact List.mem_cons_self _ _) e hein
          · exact sl_pieces_noLB (d :: rest) p (by rw [hsp]; exact List.mem_cons_of_mem _ hmem)

/-- Splitlines distributes over a newline after a break-free piece. -/
theorem sl_append_newline : (p : Str) → (rest : Str) →
    (∀ c ∈ p, isLB c = false) →
    pySplitlines (p ++ '\n' :: rest) = p :: pySplitlines rest
  | [], rest, _ => by
    rcases rest with _ | ⟨d, rest'⟩
    · rw [List.nil_append]
      rfl
    · rw [List.nil_append]
      rw [pySplitlines, if_neg (fun hand => by exact absurd hand.1 (by decide)),
        if_pos (by decide)]
  | c :: p', rest, hnb => by
    have hc : isLB c = false := hnb c (List.mem_cons_self _ _)
    have hne : p' ++ '\n' :: rest ≠ [] := by
      rcases p' with _ | _ <;> simp
    rw [List.cons_append, pySplitlines_cons c _ hne hc,
      sl_append_newline p' rest (fun e he => hnb e (List.mem_cons_of_mem c he))]

/-- Splitlines of a break-free string is the string as a single piece, or
nothing when empty. -/
theorem sl_noLB : (p : Str) → (∀ c ∈ p, isLB c = false) →
    pySplitlines p = if p.isEmpty then [] else [p]
  | [], _ => rfl
  | [c], h => by
    rw [pySplitlines, if_neg (by simpa using h c (List.mem_singleton_self c))]
    rfl
  | c :: d :: rest, h => by
    have hc : isLB c = false := h c (List.mem_cons_self _ _)
    have hrest := sl_noLB (d :: rest) (fun e he => h e (List.mem_cons_of_mem c he))
    rw [pySplitlines_cons c (d :: rest) (by simp) hc, hrest]
    rfl

/-- Splitlines undoes a newline join of break-free pieces, up to one
trailing empty piece. -/
theorem sl_join : (ps : List Str) → (p : Str) →
    (∀ q ∈ p :: ps, ∀ c ∈ q, isLB c = false) →
    pySplitlines (List.intercalate ['\n'] (p :: ps)) = dropTrailEmpty (p :: ps)
  | [], p, h => by
    rw [intercal_single, sl_noLB p (h p (List.mem_singleton_self p))]
    rfl
  | q :: ps', p, h => by
    rw [intercal_cons_cons, List.append_assoc, List.singleton_append,
      sl_append_newline p _ (h p (List.mem_cons_self _ _)),
      sl_join ps' q (fun r hr => h r (List.mem_cons_of_mem p hr))]
    rfl

/-- Scrubbing introduces no element tag that was not present. -/
theorem scrub_no_new (names : List Str) (tag : Str) :
    (f : HForest) → hasTagF tag (scrubF names f) = true → hasTagF tag f = true
  | .nil, h => h
  | .cons (.text s) f, h => by
    simp only [scrubF, hasTagF] at h ⊢
    exact scrub_no_new names tag f h
  | .cons (.elem t a c) f, h => by
    simp only [scrubF] at h
    simp only [hasTagF, Bool.or_eq_true, beq_iff_eq]
    by_cases hm : names.contains t
    · simp only [hm, if_pos] at h
      exact Or.inr (scrub_no_new names tag f h)
    · simp only [hm, Bool.false_eq_true, if_neg, not_false_eq_true, hasTagF,
        Bool.or_eq_true, beq_iff_eq] at h
      rcases h with (h | h) | h
      · exact Or.inl (Or.inl h)
      · exact Or.inl (Or.inr (scrub_no_new names tag c h))
      · exact Or.inr (scrub_no_new names tag f h)

/-- Scrubbing introduces no div element with role main. -/
theorem scrub_no_new_div (names : List Str) :
    (f : HForest) → hasDivMainF (scrubF names f) = true → hasDivMainF f = true
  | .nil, h => h
  | .cons (.text s) f, h => by
    simp only [scrubF, hasDivMainF] at h ⊢
    exact scrub_no_new_div names f h
  | .cons (.elem t a c) f, h => by
    simp only [scrubF] at h
    simp only [hasDivMainF, Bool.or_eq_true]
    by_cases hm : names.contains t
    · simp only [hm, if_pos] at h
      exact Or.inr (scrub_no_new_div names f h)
    · simp only [hm, Bool.false_eq_true, if_neg, not_false_eq_true, hasDivMainF,
        Bool.or_eq_true] at h
      rcases h with (h | h) | h
      · exact Or.inl (Or.inl h)
      · exact Or.inl (Or.inr (scrub_no_new_div names c h))
      · exact Or.inr (scrub_no_new_div names f h)

/-- A successful tag search witnesses the tag. -/
theorem find_some_hasTag (tag : Str) :
    (f : HForest) → ∀ r, findTagF tag f = some r → hasTagF tag f = true
  | .nil, r, h => Option.noConfusion h
  | .cons (.text s) f, r, h => by
    simp only [findTagF] at h
    simp only [hasTagF]
    exact find_some_hasTag tag f r h
  | .cons (.elem t a c) f, r, h => by
    simp only [findTagF] at h
    simp only [hasTagF, Bool.or_eq_true, beq_iff_eq]
    by_cases ht : t = tag
    · exact Or.inl (Or.inl ht)
    · simp only [ht, if_neg, not_false_eq_true] at h
      rcases hc : findTagF tag c with _ | rc
      · rw [hc] at h
        exact Or.inr (find_some_hasTag tag f r h)
      · rw [hc] at h
        exact Or.inl (Or.inr (find_some_hasTag tag c rc hc))

/-- A successful div[role=main] search witnesses such a div. -/
theorem findDiv_some_hasDiv :
    (f : HForest) → ∀ r, findDivMainF f = some r → hasDivMainF f = true
  | .nil, r, h => Option.noConfusion h
  | .cons (.text s) f, r, h => by
    simp only [findDivMainF] at h
    simp only [hasDivMainF]
    exact findDiv_some_hasDiv f r h
  | .cons (.elem t a c) f, r, h => by
    simp only [findDivMainF] at h
    simp only [hasDivMainF, Bool.or_eq_true]
    by_cases ht : t = "div".toList ∧ a.lookup "role".toList = some "main".toList
    · exact Or.inl (Or.inl (decide_eq_true ht))
    · rw [if_neg ht] at h
      rcases hc : findDivMainF c with _ | rc
      · rw [hc] at h
        exact Or.inr (findDiv_some_hasDiv f r h)
      · rw [hc] at h
        exact Or.inl (Or.inr (findDiv_some_hasDiv c rc hc))

/-- Absence of the tag makes the search fail. -/
theorem find_none_of_no_tag {tag : Str} {f : HForest} (h : hasTagF tag f = false) :
    findTagF tag f = none := by
  rcases hf : findTagF tag f with _ | r
  · rfl
  · rw [find_some_hasTag tag f r hf] at h
    cases h

/-- Absence of a div[role=main] makes the search fail. -/
theorem findDiv_none_of_no_div {f : HForest} (h : hasDivMainF f = false) :
    findDivMainF f = none := by
  rcases hf : findDivMainF f with _ | r
  · rfl
  · rw [findDiv_some_hasDiv f r hf] at h
    cases h

/-
Claim theorems.
-/

/-- C1, counterexample: clean_text can output two consecutive spaces.  The
input holds a non-printable, non-whitespace NUL between two spaces: the
whitespace collapse runs first and leaves both spaces, then the printable
filter deletes the NUL, putting the two spaces side by side; the same string
reaches clean_text through extraction of a document whose body holds that
text.  This refutes the claimed invariant as stated. -/
theorem C1_counterexample :
    clean_text "a \x00 b".toList = "a  b".toList ∧
    noRunWs (clean_text "a \x00 b".toList) = false ∧
    scrape_website_content
      (.ofList [.elem "body".toList [] (.ofList [.text "a \x00 b".toList])]) =
      some "a  b".toList :=
  ⟨by decide, by decide, by decide⟩

/-- C1 (amended): for every input string the output of clean_text contains
only printable characters; and whenever every non-printable character of the
input is a whitespace character, the output also contains no run of
whitespace longer than one space. -/
theorem C1_clean_text_invariant (x : Str) :
    (∀ a ∈ clean_text x, pyIsPrintable a = true) ∧
    ((∀ a ∈ x, pyIsPrintable a = false → pyIsSpace a = true) →
      noRunWs (clean_text x) = true) :=
  ⟨clean_text_printable x, fun hyp => clean_text_noRun hyp⟩

/-- C1, witness: the amended invariant evaluated on a concrete input whose
non-printable characters are all whitespace. -/
theorem C1_witness :
    (∀ a ∈ ("a\t\n b".toList : Str), pyIsPrintable a = false → pyIsSpace a = true) ∧
    noRunWs (clean_text "a\t\n b".toList) = true :=
  ⟨by decide, (C1_clean_text_invariant "a\t\n b".toList).2 (by decide)⟩

/-- C2, counterexample: clean_text is not idempotent.  On the NUL input the
first pass leaves two adjacent spaces, which the second pass collapses. -/
theorem C2_counterexample :
    clean_text (clean_text "a \x00 b".toList) ≠ clean_text "a \x00 b".toList := by
  decide

/-- C2 (amended): on every input all of whose characters are printable,
clean_text is idempotent. -/
theorem C2_normalize_idempotent (x : Str)
    (hyp : ∀ a ∈ x, pyIsPrintable a = true) :
    clean_text (clean_text x) = clean_text x :=
  clean_text_idem hyp

/-- C2, witness: idempotence evaluated on a concrete printable input. -/
theorem C2_witness :
    (∀ a ∈ (" a  b ".toList : Str), pyIsPrintable a = true) ∧
    clean_text (clean_text " a  b ".toList) = clean_text " a  b ".toList :=
  ⟨by decide, C2_normalize_idempotent " a  b ".toList (by decide)⟩

/-- C3: evaluation of the code at the input named by the spec and by the
comment next to the code.  Both promise My-Shop.Co.Uk, the title-case of
every dash-separated word; str.capitalize lower-cases everything after the
first character of a label, so the code yields My-shop.Co.Uk instead. -/
theorem C3_display_name_capitalize :
    display_name "www.my-shop.co.uk".toList = "My-shop.Co.Uk".toList ∧
    "My-shop.Co.Uk".toList ≠ "My-Shop.Co.Uk".toList :=
  ⟨by decide, by decide⟩

/-- C4, counterexample: on a document with no body (and no main, article or
div[role=main]) the extractor returns None, the same failure value as for
network errors, accompanied by an error message; it does not return an
empty string. -/
theorem C4_counterexample :
    hasTagF "main".toList exDocNoBody = false ∧
    hasTagF "article".toList exDocNoBody = false ∧
    hasDivMainF exDocNoBody = false ∧
    hasTagF "body".toList exDocNoBody = false ∧
    scrape_website_content exDocNoBody = none ∧
    scrape_website_content exDocNoBody ≠ some [] :=
  ⟨by decide, by decide, by decide, by decide, by decide, by decide⟩

/-- C4 (amended): for every document with no main, article, div[role=main]
or body element, extraction returns None (the error outcome reported to the
user), not an empty string. -/
theorem C4_no_body_returns_none (doc : HForest)
    (hmain : hasTagF "main".toList doc = false)
    (hart : hasTagF "article".toList doc = false)
    (hdiv : hasDivMainF doc = false)
    (hbody : hasTagF "body".toList doc = false) :
    scrape_website_content doc = none := by
  have hm : hasTagF "main".toList (scrubF initNames doc) = false := by
    cases hh : hasTagF "main".toList (scrubF initNames doc)
    · rfl
    · rw [scrub_no_new initNames _ doc hh] at hmain; cases hmain
  have ha : hasTagF "article".toList (scrubF initNames doc) = false := by
    cases hh : hasTagF "article".toList (scrubF initNames doc)
    · rfl
    · rw [scrub_no_new initNames _ doc hh] at hart; cases hart
  have hd : hasDivMainF (scrubF initNames doc) = false := by
    cases hh : hasDivMainF (scrubF initNames doc)
    · rfl
    · rw [scrub_no_new_div initNames doc hh] at hdiv; cases hdiv
  have hb : hasTagF "body".toList (scrubF initNames doc) = false := by
    cases hh : hasTagF "body".toList (scrubF initNames doc)
    · rfl
    · rw [scrub_no_new initNames _ doc hh] at hbody; cases hbody
  rw [scrape_website_content, find_none_of_no_tag hm, find_none_of_no_tag ha,
    find_none_of_no_tag hb, findDiv_none_of_no_div hd]

/-- C4, witness: the amended statement evaluated on the concrete bodyless
document. -/
theorem C4_witness :
    scrape_website_content exDocNoBody = none :=
  C4_no_body_returns_none exDocNoBody (by decide) (by decide) (by decide) (by decide)

/-- C5: the prompt embeds the scraped text as a prefix cut of at most
MAX_SCRAPED_TEXT_LENGTH characters between the fixed template parts, and a
5000-character input is cut to exactly its first 4000 characters. -/
theorem C5_truncation (s url : Str) :
    (content_to_analyze s).length ≤ MAX_SCRAPED_TEXT_LENGTH ∧
    content_to_analyze s <+: s ∧
    build_prompt s url =
      promptPart1 ++ url ++ promptPart2 ++ content_to_analyze s ++
        promptPart3 ++ url ++ promptPart4 ∧
    (s.length = 5000 → content_to_analyze s = s.take 4000) := by
  refine ⟨?_, List.take_prefix _ _, rfl, fun _ => rfl⟩
  rw [content_to_analyze, List.length_take]
  exact Nat.min_le_left _ _

/-- C5, witness: the truncation statement evaluated on a 5000-character
input with the 4000-character budget. -/
theorem C5_witness :
    (List.replicate 5000 'a').length = 5000 ∧
    content_to_analyze (List.replicate 5000 'a') = (List.replicate 5000 'a').take 4000 := by
  have h := (C5_truncation (List.replicate 5000 'a') "https://example.com".toList).2.2.2
  exact ⟨List.length_replicate 5000 'a', h (List.length_replicate 5000 'a')⟩

/-- C6: the parser searches the whole stripped output case-insensitively for
the subject marker; when found at the first matching index the result is the
stripped suffix from that index, otherwise the whole stripped output is
returned unchanged (the non-fatal fallback); and the worked example returns
the text starting exactly at the marker. -/
theorem C6_parse_pitch_spec :
    (∀ raw : Str,
      (∀ i, findSubjCI (pyStrip raw) = some i →
        parse_pitch raw = pyStrip ((pyStrip raw).drop i) ∧
        matchesAt (pyStrip raw) i = true ∧
        ∀ j, j < i → matchesAt (pyStrip raw) j = false) ∧
      (findSubjCI (pyStrip raw) = none → parse_pitch raw = pyStrip raw)) ∧
    parse_pitch "Some preamble.\nSubject: Hello\nBody text".toList =
      "Subject: Hello\nBody text".toList := by
  constructor
  · intro raw
    constructor
    · intro i hi
      obtain ⟨hm, hmin⟩ := findSubj_some (pyStrip raw) i hi
      refine ⟨?_, hm, hmin⟩
      rw [parse_pitch, hi]
    · intro hn
      rw [parse_pitch, hn]
  · decide

/-- C6, witness: the parser applied at the worked example, with the marker
found at index 15 of the stripped output. -/
theorem C6_witness :
    findSubjCI (pyStrip "Some preamble.\nSubject: Hello\nBody text".toList) = some 15 ∧
    parse_pitch "Some preamble.\nSubject: Hello\nBody text".toList =
      pyStrip ((pyStrip "Some preamble.\nSubject: Hello\nBody text".toList).drop 15) ∧
    matchesAt (pyStrip "Some preamble.\nSubject: Hello\nBody text".toList) 15 = true := by
  have h := (C6_parse_pitch_spec.1 "Some preamble.\nSubject: Hello\nBody text".toList).1
    15 (by decide)
  exact ⟨by decide, h.1, h.2.1⟩

/-- C7, counterexample: a document whose only main element sits inside an
aside.  The initial cleanup decomposes the aside together with the main
inside it, and extraction falls back to the body: the output is the sibling
paragraph text Out, which does not occur in the main subtree (whose only
text is Secret).  This refutes the claim for inputs whose main element lies
inside a removed element. -/
theorem C7_counterexample :
    hasTagF "main".toList exDocAside = true ∧
    findTagF "main".toList exDocAside =
      some ([], .ofList [.text "Secret".toList]) ∧
    scrape_website_content exDocAside = some "Out".toList ∧
    containsSub "Out".toList "Secret".toList = false :=
  ⟨by decide, rfl, by decide, by decide⟩

/-- C7 (amended): whenever the cleaned document still contains a main
element, extraction returns the cleaned text of the first such element's
subtree alone — any two documents whose cleaned forms share that subtree
extract identically — and the worked example extracts to Hello World. -/
theorem C7_main_extraction :
    (∀ (doc : HForest) (a : List (Str × Str)) (c : HForest),
      findTagF "main".toList (scrubF initNames doc) = some (a, c) →
      scrape_website_content doc = some (clean_text (getTextF (scrubF innerNames c))) ∧
      ∀ (doc2 : HForest) (a2 : List (Str × Str)),
        findTagF "main".toList (scrubF initNames doc2) = some (a2, c) →
        scrape_website_content doc2 = scrape_website_content doc) ∧
    scrape_website_content exDocC7 = some "Hello World".toList := by
  have hmain : ∀ (doc : HForest) (a : List (Str × Str)) (c : HForest),
      findTagF "main".toList (scrubF initNames doc) = some (a, c) →
      scrape_website_content doc = some (clean_text (getTextF (scrubF innerNames c))) := by
    intro doc a c hfind
    rw [scrape_website_content, hfind]
  refine ⟨?_, by decide⟩
  intro doc a c hfind
  refine ⟨hmain doc a c hfind, ?_⟩
  intro doc2 a2 hfind2
  rw [hmain doc a c hfind, hmain doc2 a2 c hfind2]

/-- C7, witness: the amended statement applied at the worked example
document, whose cleaned main subtree is the cleaned example children. -/
theorem C7_witness :
    scrape_website_content exDocC7 =
      some (clean_text (getTextF (scrubF innerNames (scrubF initNames exMainChildren)))) :=
  (C7_main_extraction.1 exDocC7 [] (scrubF initNames exMainChildren) rfl).1

/-- C8: an entered URL that fails the validation (scheme http or https and a
non-empty host after urlparse) makes the run end with the InvalidUrl outcome
before any external call: the recorded call list is empty. -/
theorem C8_invalid_url_no_calls (url model : Str) (f : FetchOutcome) (g : LLMOutcome)
    (h : validUrl url = false) :
    run_pipeline url model f g = (.invalidUrl, []) := by
  rw [run_pipeline.eq_def, h]
  simp

/-- C8, witness: the spec's concrete invalid input issues zero calls. -/
theorem C8_witness :
    validUrl "not-a-url".toList = false ∧
    run_pipeline "not-a-url".toList "mistralai/Mistral-7B-Instruct-v0.1".toList
      .failed .failed = (.invalidUrl, []) :=
  ⟨by decide, C8_invalid_url_no_calls _ _ .failed .failed (by decide)⟩

/-- C9: when extraction yields no usable text (None, or the empty string,
both falsy at the line 205 check) on a validated URL, the run ends with the
distinct no-usable-content outcome after the single fetch call, and no
completion call is ever recorded. -/
theorem C9_empty_extraction_halts (url model : Str) (doc : HForest) (g : LLMOutcome)
    (hv : validUrl url = true)
    (hext : scrape_website_content doc = none ∨ scrape_website_content doc = some []) :
    run_pipeline url model (.ok doc) g = (.noUsableContent, [.fetchCall url]) ∧
    ∀ p, CallEv.completeCall p ∉ (run_pipeline url model (.ok doc) g).2 := by
  have hrun : run_pipeline url model (.ok doc) g = (.noUsableContent, [.fetchCall url]) := by
    rcases hext with h | h
    · rw [run_pipeline, hv, h]
      simp
    · rw [run_pipeline, hv, h]
      simp
  refine ⟨hrun, ?_⟩
  rw [hrun]
  intro p hp
  simp at hp

/-- C9, witness: a valid URL with a bodyless document halts with the
no-usable-content outcome after only the fetch call. -/
theorem C9_witness :
    validUrl "http://example.com".toList = true ∧
    scrape_website_content exDocNoBody = none ∧
    run_pipeline "http://example.com".toList "m".toList (.ok exDocNoBody) .failed =
      (.noUsableContent, [.fetchCall "http://example.com".toList]) :=
  ⟨by decide, by decide,
    (C9_empty_extraction_halts "http://example.com".toList "m".toList exDocNoBody .failed
      (by decide) (Or.inl (by decide))).1⟩

/-- C10, counterexample: when the pitch ends in a blank line, rejoining the
lines with a newline drops that trailing blank line, so the line sequence
after the first line is not preserved: the tail of the line list changes
from one empty line to no lines. -/
theorem C10_counterexample :
    pySplitlines "Subject: Ops at Your Business\n\n".toList =
      ["Subject: Ops at Your Business".toList, []] ∧
    pySplitlines (refine_subject "Subject: Ops at Your Business\n\n".toList
        "example.com".toList) =
      ["Subject: Ops at Example.Com".toList] ∧
    (pySplitlines (refine_subject "Subject: Ops at Your Business\n\n".toList
        "example.com".toList)).tail ≠
      (pySplitlines "Subject: Ops at Your Business\n\n".toList).tail :=
  ⟨by decide, by decide, by decide⟩

/-- C10 (amended): when the first line of the pitch contains the
placeholder, the refined pitch's line sequence is the first line with every
placeholder occurrence replaced, followed by the original remaining lines,
except that one trailing empty line (if any) is dropped by the rejoin; the
rewritten first line is the intercalation of the replacement over the
placeholder-free split pieces of the original first line. -/
theorem C10_subject_refinement (pitch netloc l0 : Str) (rest : List Str)
    (hsp : pySplitlines pitch = l0 :: rest)
    (hcon : containsSub genericSubjectPart l0 = true)
    (hnb : ∀ c ∈ display_name netloc, isLB c = false) :
    pySplitlines (refine_subject pitch netloc) =
      dropTrailEmpty
        (pyReplace genericSubjectPart ("at ".toList ++ display_name netloc) l0 :: rest) ∧
    pyReplace genericSubjectPart ("at ".toList ++ display_name netloc) l0 =
      List.intercalate ("at ".toList ++ display_name netloc)
        (splitOnSub genericSubjectPart l0) ∧
    ∀ p ∈ splitOnSub genericSubjectPart l0, containsSub genericSubjectPart p = false := by
  have href : refine_subject pitch netloc =
      List.intercalate ['\n']
        (pyReplace genericSubjectPart ("at ".toList ++ display_name netloc) l0 :: rest) := by
    rw [refine_subject, hsp]
    simp only [hcon, if_true]
  have hl0nb : ∀ c ∈ l0, isLB c = false :=
    sl_pieces_noLB pitch l0 (by rw [hsp]; exact List.mem_cons_self _ _)
  have hpieces : ∀ q ∈ (pyReplace genericSubjectPart
        ("at ".toList ++ display_name netloc) l0) :: rest, ∀ c ∈ q, isLB c = false := by
    intro q hq c hc
    rcases List.mem_cons.mp hq with rfl | hmem
    · rcases replAux_chars genericSubjectPart _ l0 0 c hc with h | h
      · rcases List.mem_append.mp h with h2 | h2
        · have : c = 'a' ∨ c = 't' ∨ c = ' ' := by
            simpa using h2
          rcases this with rfl | rfl | rfl <;> decide
        · exact hnb c h2
      · exact hl0nb c h
    · exact sl_pieces_noLB pitch q (by rw [hsp]; exact List.mem_cons_of_mem _ hmem) c hc
  rw [href, sl_join rest _ hpieces]
  exact ⟨rfl, replAux_eq_intercalate _ _ l0 0,
    splitAux_no_pat genericSubjectPart (by decide) l0 0⟩

/-- C10, witness: the refinement statement evaluated at a concrete pitch
whose first line holds the placeholder and a concrete domain. -/
theorem C10_witness :
    pySplitlines (refine_subject "Subject: Ops at Your Business\nHello".toList
        "example.com".toList) =
      dropTrailEmpty
        (pyReplace genericSubjectPart
          ("at ".toList ++ display_name "example.com".toList)
          "Subject: Ops at Your Business".toList :: ["Hello".toList]) ∧
    pyReplace genericSubjectPart ("at ".toList ++ display_name "example.com".toList)
        "Subject: Ops at Your Business".toList =
      List.intercalate ("at ".toList ++ display_name "example.com".toList)
        (splitOnSub genericSubjectPart "Subject: Ops at Your Business".toList) ∧
    ∀ p ∈ splitOnSub genericSubjectPart "Subject: Ops at Your Business".toList,
      containsSub genericSubjectPart p = false :=
  C10_subject_refinement "Subject: Ops at Your Business\nHello".toList
    "example.com".toList "Subject: Ops at Your Business".toList ["Hello".toList]
    (by decide) (by decide) (by decide)
